import Mathlib

/-!
Verification of a linear-algebra Grover simulator.

The development shallowly embeds the simulator's core:
* `Qubit` state vectors and their normalization (`Structures/Qubit.py`),
* the gate algebra: matrix product and Kronecker tensor (`Structures/Gate.py`),
* oracle construction (`Structures/Oracle.py`),
* the diffusion operator (`Structures/Diffusions.py`),
* the register and its gate application / measurement (`Structures/Registers.py`),
* the Grover driver pipeline (`Algorithms/grover.py`).

Machine floating point is embedded as exact real/complex arithmetic, so every
"within 1e-8" tolerance in the specification is settled by an exact identity.
-/

open scoped BigOperators
open scoped Matrix
open Complex

/-! ### Qubit (`Structures/Qubit.py`)

`Qubit.__init__` stores a 2-dimensional complex amplitude vector and calls
`_normalize`, which divides by `np.linalg.norm` unless that norm is zero.
`Qubit.apply_gate(M)` returns `Qubit(M @ state)`, i.e. renormalizes. -/

/-- Embeds `np.linalg.norm` of a 2-vector: square root of the sum of squared magnitudes. -/
noncomputable def qubitNorm (v : Fin 2 → ℂ) : ℝ :=
  Real.sqrt (∑ i, Complex.normSq (v i))

/-- Embeds `Qubit._normalize`: divide by the Euclidean norm when it is non-zero,
otherwise leave the vector unchanged. -/
noncomputable def qubitNormalize (v : Fin 2 → ℂ) : Fin 2 → ℂ :=
  if qubitNorm v ≠ 0 then fun i => v i / (qubitNorm v : ℂ) else v

/-- Embeds `Qubit.__init__`: store the input amplitudes and normalize them. -/
noncomputable def qubitInit (v : Fin 2 → ℂ) : Fin 2 → ℂ :=
  qubitNormalize v

/-- Embeds `Qubit.apply_gate`: build a fresh `Qubit` from `gate_matrix @ state`,
which renormalizes the product through the constructor. -/
noncomputable def qubitApplyGate (gate_matrix : Matrix (Fin 2) (Fin 2) ℂ)
    (state : Fin 2 → ℂ) : Fin 2 → ℂ :=
  qubitInit (gate_matrix.mulVec state)

lemma sum_normSq_pos_of_ne_zero {v : Fin 2 → ℂ} (hv : v ≠ 0) :
    0 < ∑ i, Complex.normSq (v i) := by
  obtain ⟨i, hi⟩ : ∃ i, v i ≠ 0 := by
    by_contra h
    push_neg at h
    exact hv (funext fun i => h i)
  exact Finset.sum_pos' (fun j _ => Complex.normSq_nonneg _)
    ⟨i, Finset.mem_univ i, Complex.normSq_pos.mpr hi⟩

lemma qubitNorm_pos_of_ne_zero {v : Fin 2 → ℂ} (hv : v ≠ 0) : 0 < qubitNorm v :=
  Real.sqrt_pos.mpr (sum_normSq_pos_of_ne_zero hv)

lemma qubitNormalize_sum_sq {v : Fin 2 → ℂ} (hv : v ≠ 0) :
    ∑ i, Complex.abs (qubitNormalize v i) ^ 2 = 1 := by
  have hS : 0 < ∑ i, Complex.normSq (v i) := sum_normSq_pos_of_ne_zero hv
  have hn : 0 < qubitNorm v := qubitNorm_pos_of_ne_zero hv
  have hsq : qubitNorm v ^ 2 = ∑ i, Complex.normSq (v i) :=
    Real.sq_sqrt hS.le
  rw [qubitNormalize, if_pos hn.ne']
  have habs : ∀ i, Complex.abs (v i / (qubitNorm v : ℂ)) ^ 2
      = Complex.normSq (v i) / qubitNorm v ^ 2 := by
    intro i
    rw [map_div₀, Complex.abs_ofReal, abs_of_pos hn, div_pow, Complex.sq_abs]
  simp only [habs]
  rw [← Finset.sum_div, hsq, div_self hS.ne']

/-- C4: constructing a `Qubit` from any non-zero complex 2-vector yields
a state whose squared magnitudes sum to exactly 1. -/
theorem qubitInit_unit_norm (v : Fin 2 → ℂ) (hv : v ≠ 0) :
    ∑ i, Complex.abs (qubitInit v i) ^ 2 = 1 :=
  qubitNormalize_sum_sq hv

/-- Witness for C4 at the concrete non-zero input `(3, 4i)`. -/
theorem qubitInit_unit_norm_witness :
    (fun i : Fin 2 => if i = 0 then (3 : ℂ) else 4 * Complex.I) ≠ 0 ∧
    ∑ i, Complex.abs
        (qubitInit (fun i : Fin 2 => if i = 0 then (3 : ℂ) else 4 * Complex.I) i) ^ 2 = 1 := by
  have hne : (fun i : Fin 2 => if i = 0 then (3 : ℂ) else 4 * Complex.I) ≠ 0 := by
    intro h
    have h0 := congrFun h 0
    simp at h0
  exact ⟨hne, qubitInit_unit_norm _ hne⟩

/-- C8: normalizing the all-zero vector is a guarded no-op: the vector is
returned unchanged rather than divided by zero. -/
theorem qubitNormalize_zero : qubitNormalize (0 : Fin 2 → ℂ) = 0 := by
  have h : qubitNorm (0 : Fin 2 → ℂ) = 0 := by
    simp [qubitNorm]
  rw [qubitNormalize, if_neg]
  simp [h]

/-- C10: `Qubit.apply_gate` always returns a unit-norm state when the matrix
image of the state is non-zero, whether or not the matrix is unitary, because
the `Qubit` constructor renormalizes. -/
theorem qubitApplyGate_unit_norm (M : Matrix (Fin 2) (Fin 2) ℂ) (q : Fin 2 → ℂ)
    (h : M.mulVec q ≠ 0) :
    ∑ i, Complex.abs (qubitApplyGate M q i) ^ 2 = 1 :=
  qubitNormalize_sum_sq h

/-- Witness for C10 at the non-unitary matrix `diag(2, 0)` applied to `(1, 1)`. -/
theorem qubitApplyGate_unit_norm_witness :
    (!![(2 : ℂ), 0; 0, 0]).mulVec (fun _ => 1) ≠ 0 ∧
    ∑ i, Complex.abs (qubitApplyGate !![(2 : ℂ), 0; 0, 0] (fun _ => 1) i) ^ 2 = 1 := by
  have hne : (!![(2 : ℂ), 0; 0, 0]).mulVec (fun _ => 1) ≠ 0 := by
    intro h
    have h0 := congrFun h 0
    simp [Matrix.mulVec, Matrix.dotProduct, Fin.sum_univ_two] at h0
  exact ⟨hne, qubitApplyGate_unit_norm _ _ hne⟩

/-! ### Gate algebra (`Structures/Gate.py`)

`GenericGate.__matmul__` returns `GenericGate(self.gate_matrix @ other.gate_matrix)`;
`GenericGate.tensor` returns `GenericGate(np.kron(self.gate_matrix, other.gate_matrix))`. -/

/-- Embeds `GenericGate.__matmul__`: the matrix of the sequential composition is the
matrix product of the two gate matrices. -/
noncomputable def gateMatmul {m : ℕ} (A B : Matrix (Fin m) (Fin m) ℂ) :
    Matrix (Fin m) (Fin m) ℂ :=
  A * B

/-- Embeds `np.kron` for square matrices, with the row-major index flattening
`(i, k) ↦ i * dim B + k` that numpy uses. -/
noncomputable def npKron {m n : ℕ} (A : Matrix (Fin m) (Fin m) ℂ)
    (B : Matrix (Fin n) (Fin n) ℂ) : Matrix (Fin (m * n)) (Fin (m * n)) ℂ :=
  Matrix.reindex finProdFinEquiv finProdFinEquiv (Matrix.kroneckerMap (fun a b => a * b) A B)

/-- Embeds `Gate_H`: the Hadamard matrix `(1 / sqrt 2) * [[1, 1], [1, -1]]`. -/
noncomputable def Gate_H : Matrix (Fin 2) (Fin 2) ℂ :=
  ((1 / Real.sqrt 2 : ℝ) : ℂ) • !![1, 1; 1, -1]

/-- C9: sequential gate composition is the matrix product `A·B`, the operator
that applies `B` first and then `A` under the left-multiplication convention. -/
theorem gateMatmul_sequential {m : ℕ} (A B : Matrix (Fin m) (Fin m) ℂ) :
    gateMatmul A B = A * B ∧
    ∀ v : Fin m → ℂ, (gateMatmul A B).mulVec v = A.mulVec (B.mulVec v) := by
  refine ⟨rfl, fun v => ?_⟩
  rw [gateMatmul, Matrix.mulVec_mulVec]

/-! ### Oracle construction (`Structures/Oracle.py`)

`GenericOracle.get_matrix` builds `np.diag([(-1) ** f(i) for i in range(2 ** n)])`;
`OracleAND.get_function` returns `lambda x: ((x >> 1) & 1) & (x & 1)`. -/

/-- Embeds `GenericOracle.get_matrix`: the diagonal matrix with entries `(-1) ** f(i)`. -/
noncomputable def oracleGetMatrix (f : ℕ → ℕ) (n : ℕ) :
    Matrix (Fin (2 ^ n)) (Fin (2 ^ n)) ℂ :=
  Matrix.diagonal fun i => (-1 : ℂ) ^ f i.val

/-- Embeds `OracleAND.get_function`: the two-qubit AND predicate `((x >> 1) & 1) & (x & 1)`. -/
def oracleANDFunction : ℕ → ℕ := fun x => ((x >>> 1) &&& 1) &&& (x &&& 1)

lemma oracleGetMatrix_diag_sq (f : ℕ → ℕ) (n : ℕ) (i : Fin (2 ^ n)) :
    star ((-1 : ℂ) ^ f i.val) * (-1 : ℂ) ^ f i.val = 1 := by
  have hs : star ((-1 : ℂ) ^ f i.val) = (-1 : ℂ) ^ f i.val := by
    rw [star_pow]
    norm_num
  rw [hs, ← pow_add, ← two_mul, pow_mul]
  norm_num

/-- C2: for a total `{0,1}`-valued predicate, the oracle build returns exactly
the diagonal matrix with entries `(-1) ^ f(i)`, and that matrix is unitary. -/
theorem oracleGetMatrix_diagonal_unitary (f : ℕ → ℕ) (n : ℕ) (hn : 1 ≤ n)
    (hf : ∀ x, f x = 0 ∨ f x = 1) :
    (∀ i j : Fin (2 ^ n), oracleGetMatrix f n i j =
        if i = j then (-1 : ℂ) ^ f i.val else 0) ∧
    (oracleGetMatrix f n)ᴴ * oracleGetMatrix f n = 1 := by
  constructor
  · intro i j
    by_cases h : i = j
    · subst h
      rw [if_pos rfl, oracleGetMatrix, Matrix.diagonal_apply_eq]
    · rw [if_neg h, oracleGetMatrix, Matrix.diagonal_apply_ne _ h]
  · rw [oracleGetMatrix, Matrix.diagonal_conjTranspose, Matrix.diagonal_mul_diagonal]
    have hd : (fun i : Fin (2 ^ n) => star ((-1 : ℂ) ^ f i.val) * (-1 : ℂ) ^ f i.val)
        = fun _ : Fin (2 ^ n) => (1 : ℂ) :=
      funext fun i => oracleGetMatrix_diag_sq f n i
    simp only [Pi.star_apply]
    rw [hd, Matrix.diagonal_one]

/-- Witness for C2 at the two-qubit AND predicate. -/
theorem oracleGetMatrix_diagonal_unitary_witness :
    (1 ≤ 2 ∧ ∀ x, oracleANDFunction x = 0 ∨ oracleANDFunction x = 1) ∧
    ((∀ i j : Fin (2 ^ 2), oracleGetMatrix oracleANDFunction 2 i j =
        if i = j then (-1 : ℂ) ^ oracleANDFunction i.val else 0) ∧
      (oracleGetMatrix oracleANDFunction 2)ᴴ * oracleGetMatrix oracleANDFunction 2 = 1) := by
  have hf : ∀ x, oracleANDFunction x = 0 ∨ oracleANDFunction x = 1 := by
    intro x
    have h1 : oracleANDFunction x ≤ 1 := le_trans Nat.and_le_right Nat.and_le_right
    omega
  exact ⟨⟨by norm_num, hf⟩,
    oracleGetMatrix_diagonal_unitary oracleANDFunction 2 (by norm_num) hf⟩

/-! ### Register (`Structures/Registers.py`)

`GenericRegister.__init__` allocates a `2 ** num_qubits` column of zeros and
sets entry 0 to 1. `apply_gate` assigns `state = gate_matrix @ state` with no
renormalization; numpy raises on a shape mismatch. `measure` computes
`np.abs(state.flatten()) ** 2` and draws one index with `np.random.choice`,
never writing `state`. -/

/-- Embeds `GenericRegister.__init__`: the basis state `|00...0>`. -/
def registerInitState (num_qubits : ℕ) : Fin (2 ^ num_qubits) → ℂ :=
  fun i => if i.val = 0 then 1 else 0

/-- Embeds `GenericRegister.apply_gate`: replace the state by `gate_matrix @ state`. -/
noncomputable def registerApplyGate {num_qubits : ℕ}
    (gate_matrix : Matrix (Fin (2 ^ num_qubits)) (Fin (2 ^ num_qubits)) ℂ)
    (state : Fin (2 ^ num_qubits) → ℂ) : Fin (2 ^ num_qubits) → ℂ :=
  gate_matrix.mulVec state

/-- Embeds `GenericRegister.measure`: compute the squared-magnitude probability list
and hand it to the sampling source (`np.random.choice`, modelled as an external
sampler); the returned pair is the sampled index together with the register
state after the call. -/
noncomputable def registerMeasure (choice : List ℝ → ℕ) (state : List ℂ) : ℕ × List ℂ :=
  let probabilities := state.map fun a => Complex.abs a ^ 2
  (choice probabilities, state)

/-- Untyped numpy matrix-vector product, as `gate_matrix @ state` behaves on a
row list against a flat state column: it raises (here: `none`) unless every row
length matches the state length, and otherwise returns the list of row-state
dot products. -/
noncomputable def npMatMulVec (gate_matrix : List (List ℂ)) (state : List ℂ) :
    Option (List ℂ) :=
  if gate_matrix.all fun row => row.length == state.length then
    some (gate_matrix.map fun row => (List.zipWith (fun a b => a * b) row state).sum)
  else none

lemma dotProduct_star_self (N : ℕ) (y : Fin N → ℂ) :
    Matrix.dotProduct (star y) y = ((∑ i, Complex.abs (y i) ^ 2 : ℝ) : ℂ) := by
  rw [Matrix.dotProduct, Complex.ofReal_sum]
  refine Finset.sum_congr rfl fun i _ => ?_
  rw [Pi.star_apply, Complex.sq_abs, Complex.normSq_eq_conj_mul_self]
  rfl

/-- C5: a register state of unit norm keeps unit norm under `apply_gate` with
any unitary operator of the register's dimension. -/
theorem registerApplyGate_preserves_norm {n : ℕ}
    (U : Matrix (Fin (2 ^ n)) (Fin (2 ^ n)) ℂ) (s : Fin (2 ^ n) → ℂ)
    (hU : Uᴴ * U = 1) (hs : ∑ i, Complex.abs (s i) ^ 2 = 1) :
    ∑ i, Complex.abs (registerApplyGate U s i) ^ 2 = 1 := by
  have key : Matrix.dotProduct (star (U.mulVec s)) (U.mulVec s)
      = Matrix.dotProduct (star s) s := by
    rw [Matrix.star_mulVec, Matrix.dotProduct_mulVec, Matrix.vecMul_vecMul, hU,
      Matrix.vecMul_one]
  have h1 := dotProduct_star_self _ (U.mulVec s)
  have h2 := dotProduct_star_self _ s
  rw [h1, h2] at key
  have : (∑ i, Complex.abs (U.mulVec s i) ^ 2) = ∑ i, Complex.abs (s i) ^ 2 :=
    Complex.ofReal_inj.mp key
  rw [registerApplyGate, this, hs]

/-- Witness for C5: the identity gate on one qubit applied to `|0>`. -/
theorem registerApplyGate_preserves_norm_witness :
    ((1 : Matrix (Fin (2 ^ 1)) (Fin (2 ^ 1)) ℂ)ᴴ * 1 = 1 ∧
      ∑ i, Complex.abs (registerInitState 1 i) ^ 2 = 1) ∧
    ∑ i, Complex.abs (registerApplyGate 1 (registerInitState 1) i) ^ 2 = 1 := by
  have hU : (1 : Matrix (Fin (2 ^ 1)) (Fin (2 ^ 1)) ℂ)ᴴ * 1 = 1 := by
    rw [Matrix.conjTranspose_one, Matrix.one_mul]
  have hs : ∑ i, Complex.abs (registerInitState 1 i) ^ 2 = 1 := by
    show ∑ i : Fin 2, Complex.abs (registerInitState 1 i) ^ 2 = 1
    rw [Fin.sum_univ_two]
    simp [registerInitState]
  exact ⟨⟨hU, hs⟩, registerApplyGate_preserves_norm 1 (registerInitState 1) hU hs⟩

/-- C6: applying an operator whose square dimension differs from the register
dimension `2 ^ n` fails immediately with an error (`none`), never a silently
truncated or padded state. -/
theorem npMatMulVec_dim_mismatch (n m : ℕ) (gate_matrix : List (List ℂ))
    (state : List ℂ) (hm : 1 ≤ m) (hsq : gate_matrix.length = m)
    (hrows : ∀ row ∈ gate_matrix, row.length = m)
    (hs : state.length = 2 ^ n) (hne : m ≠ 2 ^ n) :
    npMatMulVec gate_matrix state = none := by
  rw [npMatMulVec, if_neg]
  intro hall
  obtain ⟨row, hrow⟩ : ∃ row, row ∈ gate_matrix := by
    cases gate_matrix with
    | nil => simp at hsq; omega
    | cons r t => exact ⟨r, List.mem_cons_self r t⟩
  have hb := List.all_eq_true.mp hall row hrow
  rw [beq_iff_eq, hrows row hrow, hs] at hb
  exact hne hb

/-- Witness for C6: a 2-by-2 identity against a 4-dimensional register state. -/
theorem npMatMulVec_dim_mismatch_witness :
    (1 ≤ 2 ∧ [[(1 : ℂ), 0], [0, 1]].length = 2 ∧
      (∀ row ∈ [[(1 : ℂ), 0], [0, 1]], row.length = 2) ∧
      [(1 : ℂ), 0, 0, 0].length = 2 ^ 2 ∧ 2 ≠ 2 ^ 2) ∧
    npMatMulVec [[(1 : ℂ), 0], [0, 1]] [(1 : ℂ), 0, 0, 0] = none := by
  have hrows : ∀ row ∈ [[(1 : ℂ), 0], [0, 1]], row.length = 2 := by
    intro row h
    rcases List.mem_cons.mp h with h | h
    · subst h; rfl
    · rcases List.mem_cons.mp h with h | h
      · subst h; rfl
      · cases h
  exact ⟨⟨by norm_num, rfl, hrows, by norm_num, by norm_num⟩,
    npMatMulVec_dim_mismatch 2 2 _ _ (by norm_num) rfl hrows (by norm_num) (by norm_num)⟩

/-- C7: `measure` does not mutate the register: the amplitude vector after the
call is identical to the one before, the only output being the sampled index. -/
theorem registerMeasure_no_mutation (choice : List ℝ → ℕ) (state : List ℂ) :
    (registerMeasure choice state).2 = state :=
  rfl

/-! ### Diffusion operator (`Structures/Diffusions.py`)

`StandardDiffusion.get_psi` returns `np.ones((2 ** n, 1)) / np.sqrt(2 ** n)`;
`GenericDiffusion.get_matrix` returns `2 * (psi @ psi.T.conj()) - I`. -/

/-- Embeds `StandardDiffusion.get_psi`: the uniform superposition column vector. -/
noncomputable def standardDiffusionPsi (num_qubits : ℕ) :
    Matrix (Fin (2 ^ num_qubits)) (Fin 1) ℂ :=
  fun _ _ => ((1 / Real.sqrt (2 ^ num_qubits) : ℝ) : ℂ)

/-- Embeds `GenericDiffusion.get_matrix` at the standard `psi`: `2 (psi psi†) - I`. -/
noncomputable def diffusionGetMatrix (num_qubits : ℕ) :
    Matrix (Fin (2 ^ num_qubits)) (Fin (2 ^ num_qubits)) ℂ :=
  (2 : ℂ) • (standardDiffusionPsi num_qubits * (standardDiffusionPsi num_qubits)ᴴ) - 1

lemma psiH_mul_psi (n : ℕ) :
    (standardDiffusionPsi n)ᴴ * standardDiffusionPsi n = 1 := by
  have hN : (0 : ℝ) < (2 : ℝ) ^ n := by positivity
  have hc : (1 / Real.sqrt ((2 : ℝ) ^ n)) * (1 / Real.sqrt ((2 : ℝ) ^ n))
      = 1 / (2 : ℝ) ^ n := by
    rw [div_mul_div_comm, one_mul, Real.mul_self_sqrt hN.le]
  ext i j
  have hij : i = j := Subsingleton.elim i j
  subst hij
  rw [Matrix.mul_apply, Matrix.one_apply_eq]
  have hterm : ∀ k : Fin (2 ^ n),
      (standardDiffusionPsi n)ᴴ i k * standardDiffusionPsi n k i
        = ((1 / (2 : ℝ) ^ n : ℝ) : ℂ) := by
    intro k
    rw [Matrix.conjTranspose_apply, standardDiffusionPsi]
    rw [show star (((1 / Real.sqrt ((2 : ℝ) ^ n) : ℝ) : ℂ))
        = (((1 / Real.sqrt ((2 : ℝ) ^ n) : ℝ) : ℂ)) from Complex.conj_ofReal _]
    rw [← Complex.ofReal_mul, hc]
  rw [Finset.sum_congr rfl fun k _ => hterm k, Finset.sum_const, Finset.card_univ,
    Fintype.card_fin, nsmul_eq_mul]
  push_cast
  rw [mul_one_div, div_self (pow_ne_zero n (two_ne_zero : (2 : ℂ) ≠ 0))]

lemma diffusionGetMatrix_hermitian (n : ℕ) :
    (diffusionGetMatrix n)ᴴ = diffusionGetMatrix n := by
  rw [diffusionGetMatrix, Matrix.conjTranspose_sub, Matrix.conjTranspose_smul,
    Matrix.conjTranspose_one, Matrix.conjTranspose_mul,
    Matrix.conjTranspose_conjTranspose]
  norm_num

lemma diffusionGetMatrix_unitary (n : ℕ) :
    (diffusionGetMatrix n)ᴴ * diffusionGetMatrix n = 1 := by
  rw [diffusionGetMatrix_hermitian, diffusionGetMatrix]
  have hPP : (standardDiffusionPsi n * (standardDiffusionPsi n)ᴴ) *
      (standardDiffusionPsi n * (standardDiffusionPsi n)ᴴ) =
      standardDiffusionPsi n * (standardDiffusionPsi n)ᴴ := by
    rw [Matrix.mul_assoc, ← Matrix.mul_assoc ((standardDiffusionPsi n)ᴴ),
      psiH_mul_psi, Matrix.one_mul]
  set P := standardDiffusionPsi n * (standardDiffusionPsi n)ᴴ with hP
  have expand : ((2 : ℂ) • P - 1) * ((2 : ℂ) • P - 1)
      = (2 : ℂ) • ((2 : ℂ) • (P * P)) - (2 : ℂ) • P - ((2 : ℂ) • P - 1) := by
    rw [sub_mul, mul_sub, mul_one, one_mul, Matrix.smul_mul, Matrix.mul_smul]
  rw [expand, hPP, smul_smul, show ((2 : ℂ) * 2) = 4 from by norm_num]
  have h0 : (4 : ℂ) • P - (2 : ℂ) • P - (2 : ℂ) • P = 0 := by
    rw [← sub_smul, ← sub_smul]
    norm_num
  calc (4 : ℂ) • P - (2 : ℂ) • P - ((2 : ℂ) • P - 1)
      = ((4 : ℂ) • P - (2 : ℂ) • P - (2 : ℂ) • P) + 1 := by abel
    _ = 1 := by rw [h0, zero_add]

lemma diffusionGetMatrix_fixed_point (n : ℕ) :
    diffusionGetMatrix n * standardDiffusionPsi n = standardDiffusionPsi n := by
  rw [diffusionGetMatrix, Matrix.sub_mul, Matrix.one_mul, Matrix.smul_mul,
    Matrix.mul_assoc, psiH_mul_psi, Matrix.mul_one, two_smul, add_sub_cancel_right]

/-- C3: for every qubit count `n >= 1`, the standard diffusion matrix
`D = 2 psi psi† - I` is Hermitian, unitary, and fixes the uniform
superposition: `D psi = psi` exactly. -/
theorem diffusionGetMatrix_props (n : ℕ) (hn : 1 ≤ n) :
    (diffusionGetMatrix n)ᴴ = diffusionGetMatrix n ∧
    (diffusionGetMatrix n)ᴴ * diffusionGetMatrix n = 1 ∧
    diffusionGetMatrix n * standardDiffusionPsi n = standardDiffusionPsi n :=
  ⟨diffusionGetMatrix_hermitian n, diffusionGetMatrix_unitary n,
    diffusionGetMatrix_fixed_point n⟩

/-- Witness for C3 at one qubit. -/
theorem diffusionGetMatrix_props_witness :
    1 ≤ 1 ∧
    ((diffusionGetMatrix 1)ᴴ = diffusionGetMatrix 1 ∧
      (diffusionGetMatrix 1)ᴴ * diffusionGetMatrix 1 = 1 ∧
      diffusionGetMatrix 1 * standardDiffusionPsi 1 = standardDiffusionPsi 1) :=
  ⟨le_refl 1, diffusionGetMatrix_props 1 (le_refl 1)⟩

/-! ### Grover driver (`Algorithms/grover.py`)

`run_grover(oracle)` takes `n = int(np.log2(dim))` from the oracle matrix
(4-dimensional for `OracleAND`, so `n = 2`), initializes the register at
`|00>`, folds the Hadamard tensor layer (`h_total = h.tensor(h)` after one
loop pass), then applies the Hadamard layer, the oracle matrix and the
standard diffusion matrix in order before measuring. -/

/-- The Hadamard layer `h_total = h.tensor(h)` built by `run_grover` for `n = 2`. -/
noncomputable def groverHTotal : Matrix (Fin (2 ^ 2)) (Fin (2 ^ 2)) ℂ :=
  npKron Gate_H Gate_H

/-- The register state produced by `run_grover(OracleAND())` just before
measurement: `|00>`, then the Hadamard layer, the oracle, the diffusion. -/
noncomputable def runGroverFinalState : Fin (2 ^ 2) → ℂ :=
  registerApplyGate (diffusionGetMatrix 2)
    (registerApplyGate (oracleGetMatrix oracleANDFunction 2)
      (registerApplyGate groverHTotal (registerInitState 2)))

lemma npKron_apply {m n : ℕ} (A : Matrix (Fin m) (Fin m) ℂ)
    (B : Matrix (Fin n) (Fin n) ℂ) (i j : Fin (m * n)) :
    npKron A B i j = A (finProdFinEquiv.symm i).1 (finProdFinEquiv.symm j).1 *
      B (finProdFinEquiv.symm i).2 (finProdFinEquiv.symm j).2 :=
  rfl

lemma Gate_H_col_zero (a : Fin 2) : Gate_H a 0 = ((1 / Real.sqrt 2 : ℝ) : ℂ) := by
  fin_cases a <;> simp [Gate_H]

lemma half_of_sqrt_two_sq :
    ((1 / Real.sqrt 2 : ℝ) : ℂ) * ((1 / Real.sqrt 2 : ℝ) : ℂ) = ((1 / 2 : ℝ) : ℂ) := by
  rw [← Complex.ofReal_mul, div_mul_div_comm, one_mul,
    Real.mul_self_sqrt (by norm_num : (0 : ℝ) ≤ 2)]

lemma grover_reg_superposition :
    registerApplyGate groverHTotal (registerInitState 2) = fun _ => ((1 / 2 : ℝ) : ℂ) := by
  funext i
  have hsum : registerApplyGate groverHTotal (registerInitState 2) i
      = ∑ j : Fin 4, groverHTotal i j * registerInitState 2 j := rfl
  rw [hsum, Finset.sum_eq_single (0 : Fin 4)]
  · have h0 : registerInitState 2 (0 : Fin 4) = 1 := rfl
    rw [h0, mul_one, groverHTotal, npKron_apply]
    have he : finProdFinEquiv.symm ((0 : Fin 4) : Fin (2 * 2)) = ((0 : Fin 2), (0 : Fin 2)) :=
      rfl
    rw [he, Gate_H_col_zero, Gate_H_col_zero, half_of_sqrt_two_sq]
  · intro b _ hb
    have hbv : b.val ≠ 0 := fun h => hb (Fin.ext h)
    have hz : registerInitState 2 b = 0 := by
      rw [registerInitState, if_neg hbv]
    rw [hz, mul_zero]
  · intro h
    exact absurd (Finset.mem_univ (0 : Fin 4)) h

lemma grover_reg_after_oracle :
    registerApplyGate (oracleGetMatrix oracleANDFunction 2) (fun _ => ((1 / 2 : ℝ) : ℂ))
      = fun i => (-1 : ℂ) ^ oracleANDFunction i.val * ((1 / 2 : ℝ) : ℂ) := by
  funext i
  rw [registerApplyGate, oracleGetMatrix, Matrix.mulVec_diagonal]

lemma standardDiffusionPsi_two (i : Fin (2 ^ 2)) (k : Fin 1) :
    standardDiffusionPsi 2 i k = ((1 / 2 : ℝ) : ℂ) := by
  rw [standardDiffusionPsi, Real.sqrt_sq (by norm_num : (0 : ℝ) ≤ 2)]

lemma diffusionGetMatrix_two_apply (i j : Fin (2 ^ 2)) :
    diffusionGetMatrix 2 i j = (1 / 2 : ℂ) - (if i = j then 1 else 0) := by
  rw [diffusionGetMatrix, Matrix.sub_apply, Matrix.smul_apply, Matrix.mul_apply,
    Fin.sum_univ_one, Matrix.conjTranspose_apply, standardDiffusionPsi_two,
    standardDiffusionPsi_two,
    show star (((1 / 2 : ℝ) : ℂ)) = (((1 / 2 : ℝ) : ℂ)) from Complex.conj_ofReal _,
    Matrix.one_apply]
  congr 1
  rw [smul_eq_mul]
  push_cast
  norm_num

/-- C1: for the two-qubit AND oracle, the Grover pipeline (initialize `|00>`,
Hadamard tensor layer, oracle matrix, standard diffusion matrix) yields a state
whose squared amplitude magnitude at index 3 is exactly 1. -/
theorem grover_amplification : Complex.abs (runGroverFinalState 3) ^ 2 = 1 := by
  have hfinal : runGroverFinalState 3 = 1 := by
    rw [runGroverFinalState, grover_reg_superposition, grover_reg_after_oracle]
    have hsum : registerApplyGate (diffusionGetMatrix 2)
        (fun i => (-1 : ℂ) ^ oracleANDFunction i.val * ((1 / 2 : ℝ) : ℂ)) 3
        = ∑ j : Fin 4, diffusionGetMatrix 2 3 j *
            ((-1 : ℂ) ^ oracleANDFunction j.val * ((1 / 2 : ℝ) : ℂ)) := rfl
    rw [hsum, Fin.sum_univ_four]
    have e0 : diffusionGetMatrix 2 3 ((0 : Fin 4) : Fin (2 ^ 2)) = (1 / 2 : ℂ) := by
      rw [diffusionGetMatrix_two_apply, if_neg (by decide), sub_zero]
    have e1 : diffusionGetMatrix 2 3 ((1 : Fin 4) : Fin (2 ^ 2)) = (1 / 2 : ℂ) := by
      rw [diffusionGetMatrix_two_apply, if_neg (by decide), sub_zero]
    have e2 : diffusionGetMatrix 2 3 ((2 : Fin 4) : Fin (2 ^ 2)) = (1 / 2 : ℂ) := by
      rw [diffusionGetMatrix_two_apply, if_neg (by decide), sub_zero]
    have e3 : diffusionGetMatrix 2 3 ((3 : Fin 4) : Fin (2 ^ 2)) = (1 / 2 : ℂ) - 1 := by
      rw [diffusionGetMatrix_two_apply, if_pos (by decide)]
    have hf0 : oracleANDFunction ((0 : Fin 4) : Fin (2 ^ 2)).val = 0 := rfl
    have hf1 : oracleANDFunction ((1 : Fin 4) : Fin (2 ^ 2)).val = 0 := rfl
    have hf2 : oracleANDFunction ((2 : Fin 4) : Fin (2 ^ 2)).val = 0 := rfl
    have hf3 : oracleANDFunction ((3 : Fin 4) : Fin (2 ^ 2)).val = 1 := rfl
    rw [e0, e1, e2, e3, hf0, hf1, hf2, hf3]
    push_cast
    norm_num
  rw [hfinal]
  simp
